import Mathlib

/-
Verification of the ipfs-ks-postgres keystore adapter (package pgks).

The adapter stores named private keys in a two-column PostgreSQL table
(name TEXT PRIMARY KEY, data BYTEA).  We embed the table contents as an
association list of rows, the driver row-scan outcomes as an explicit
result type, and the five operations Has / Put / Get / Delete / List
plus the Options machinery and Close as Lean functions translated from
keystore.go and option.go.
-/

namespace Pgks

/-- Serialized private-key bytes (a Go byte slice). -/
abbrev Bytes := List Nat

/-- The error vocabulary surfaced by the adapter:
ErrNoSuchKey and ErrKeyExists from the keystore interface package, the
"key name must be at least one character" error in Put, marshal and
unmarshal failures from the external key codec, and any other driver
error (carried opaquely as a numeric code). -/
inductive KSError where
  | errNoSuchKey
  | errKeyExists
  | errEmptyName
  | errMarshal
  | errUnmarshal
  | errQuery (code : Nat)
deriving DecidableEq, Repr

/-- The rows of the backing table, in storage order: pairs of
name and data column values. -/
abbrev Store := List (String × Bytes)

/-- Whether some row of the table has the given name: the boolean the
query SELECT exists(SELECT 1 FROM t WHERE name = $1) produces. -/
def storeHasName (s : Store) (n : String) : Bool :=
  s.any (fun r => r.1 == n)

/-- The data column of the first row with the given name: the result
set of SELECT data FROM t WHERE name = $1 consumed by QueryRow. -/
def storeLookup (s : Store) (n : String) : Option Bytes :=
  (s.find? (fun r => r.1 == n)).map (fun r => r.2)

/-- Outcome of row.Scan on a QueryRow result: pgx.ErrNoRows, success
with a decoded value, or any other driver error. -/
inductive ScanResult (α : Type) where
  | noRows
  | ok (v : α)
  | err (code : Nat)
deriving DecidableEq, Repr

/-- The switch in Has over the row.Scan error: on pgx.ErrNoRows return
(exists, ks.ErrNoSuchKey); on nil return (exists, nil); on any other
error return (exists, err).  In the error cases Scan has not assigned
the destination, so exists still holds its zero value false. -/
def hasFromScan : ScanResult Bool → Bool × Option KSError
  | ScanResult.noRows => (false, some KSError.errNoSuchKey)
  | ScanResult.ok b => (b, none)
  | ScanResult.err c => (false, some (KSError.errQuery c))

/-- Scan outcome of the existence-check query against a healthy
database: the query always yields exactly one row holding the
existence boolean, so Scan succeeds with it. -/
def hasScan (s : Store) (n : String) : ScanResult Bool :=
  ScanResult.ok (storeHasName s n)

/-- Has(name): run the existence-check query and dispatch on the scan
outcome. -/
def has (s : Store) (n : String) : Bool × Option KSError :=
  hasFromScan (hasScan s n)

/-- Effect of INSERT INTO t (name, data) VALUES ($1, $2)
ON CONFLICT (name) DO UPDATE SET data = $2: update the data column of
rows already named n, or append a fresh row. -/
def upsertRow (s : Store) (n : String) (bs : Bytes) : Store :=
  if storeHasName s n then
    s.map (fun r => if r.1 == n then (r.1, bs) else r)
  else
    s ++ [(n, bs)]

/-- Tail of Put after the existence check has passed: marshal the key
with the external codec and execute the upsert. -/
def putInsert {K : Type} (marshal : K → Option Bytes) (s : Store) (n : String)
    (k : K) : Store × Option KSError :=
  match marshal k with
  | none => (s, some KSError.errMarshal)
  | some bs => (upsertRow s n bs, none)

/-- Put(name, priv): reject the empty name, return ErrKeyExists when
Has reports the name present, propagate a Has error other than
ErrNoSuchKey, then marshal and upsert.  The key type and its marshal
function are the external codec collaborator. -/
def put {K : Type} (marshal : K → Option Bytes) (s : Store) (n : String)
    (k : K) : Store × Option KSError :=
  if n = "" then (s, some KSError.errEmptyName)
  else
    match has s n with
    | (true, _) => (s, some KSError.errKeyExists)
    | (false, some e) =>
      if e = KSError.errNoSuchKey then putInsert marshal s n k
      else (s, some e)
    | (false, none) => putInsert marshal s n k

/-- Scan outcome of SELECT data FROM t WHERE name = $1 under QueryRow
against a healthy database: pgx.ErrNoRows when no row matches,
otherwise the stored bytes. -/
def getScan (s : Store) (n : String) : ScanResult Bytes :=
  match storeLookup s n with
  | none => ScanResult.noRows
  | some bs => ScanResult.ok bs

/-- Get(name): dispatch on the scan outcome — ErrNoSuchKey on no rows,
unmarshal the bytes on success, propagate any other error. -/
def get {K : Type} (unmarshal : Bytes → Option K) (s : Store) (n : String) :
    Option K × Option KSError :=
  match getScan s n with
  | ScanResult.noRows => (none, some KSError.errNoSuchKey)
  | ScanResult.ok bs =>
    match unmarshal bs with
    | none => (none, some KSError.errUnmarshal)
    | some k => (some k, none)
  | ScanResult.err c => (none, some (KSError.errQuery c))

/-- Delete(name): DELETE FROM t WHERE name = $1 removes every row with
the given name and reports no error whether or not one existed. -/
def delete (s : Store) (n : String) : Store × Option KSError :=
  (s.filter (fun r => !(r.1 == n)), none)

/-- The rows.Next loop of List: scan each row into a string, skip any
row whose scan fails, and collect the rest in order. -/
def listScan : List (Option String) → List String
  | [] => []
  | none :: rest => listScan rest
  | some n :: rest => n :: listScan rest

/-- Row set of SELECT name FROM t against a healthy database: every
name column decodes. -/
def listRows (s : Store) : List (Option String) :=
  s.map (fun r => some r.1)

/-- List(): query all names and run the scan loop. -/
def list (s : Store) : List String × Option KSError :=
  (listScan (listRows s), none)

/-- Keystore options (option.go). -/
structure Options where
  Table : String
deriving DecidableEq, Repr

/-- The PGKeystore option type: a function updating Options or
failing. -/
abbrev KSOption := Options → Except String Options

/-- The loop body of Options.Apply, carrying the option index used in
the failure message. -/
def applyFrom : Nat → Options → List KSOption → Except String Options
  | _, o, [] => Except.ok o
  | i, o, opt :: rest =>
    match opt o with
    | Except.error e =>
      Except.error ("datastore option " ++ toString i ++ " failed: " ++ e)
    | Except.ok o2 => applyFrom (i + 1) o2 rest

/-- Options.Apply: apply each option in order, stopping at the first
failure. -/
def Options.Apply (o : Options) (opts : List KSOption) :
    Except String Options :=
  applyFrom 0 o opts

/-- OptionDefaults: set the table name to "keys". -/
def OptionDefaults : KSOption := fun o => Except.ok { o with Table := "keys" }

/-- Table(t): configure the table name, ignoring an empty string. -/
def Table (t : String) : KSOption := fun o =>
  if t ≠ "" then Except.ok { o with Table := t } else Except.ok o

/-- The adapter value: the configured table name and the pool handle
(none models a nil pool pointer). -/
structure PGKeystore where
  table : String
  pool : Option Unit
deriving DecidableEq, Repr

/-- NewKeystore: start from the zero-valued Options, apply
OptionDefaults followed by the caller's options, fail on an option
error, then connect the pool (connectOk models whether
pgxpool.Connect succeeds) and build the adapter. -/
def NewKeystore (connectOk : Bool) (options : List KSOption) :
    Except String PGKeystore :=
  match Options.Apply { Table := "" } (OptionDefaults :: options) with
  | Except.error e => Except.error e
  | Except.ok cfg =>
    if connectOk then Except.ok { table := cfg.Table, pool := some () }
    else Except.error "connect error"

/-- Close(): close the pool when the handle is non-nil and return nil.
No field of the adapter is assigned. -/
def close (k : PGKeystore) : PGKeystore × Option KSError :=
  match k.pool with
  | some _ => (k, none)
  | none => (k, none)

/-- The adapter together with the database it talks to: the full
mutable state a method call can touch. -/
structure KSState where
  ks : PGKeystore
  db : Store

/-- Put as a method: only the database rows change. -/
def putK {K : Type} (marshal : K → Option Bytes) (st : KSState) (n : String)
    (k : K) : KSState × Option KSError :=
  let r := put marshal st.db n k
  ({ st with db := r.1 }, r.2)

/-- Has as a method: read-only. -/
def hasK (st : KSState) (n : String) : KSState × (Bool × Option KSError) :=
  (st, has st.db n)

/-- Get as a method: read-only. -/
def getK {K : Type} (unmarshal : Bytes → Option K) (st : KSState)
    (n : String) : KSState × (Option K × Option KSError) :=
  (st, get unmarshal st.db n)

/-- Delete as a method: only the database rows change. -/
def deleteK (st : KSState) (n : String) : KSState × Option KSError :=
  let r := delete st.db n
  ({ st with db := r.1 }, r.2)

/-- List as a method: read-only. -/
def listK (st : KSState) : KSState × (List String × Option KSError) :=
  (st, list st.db)

/-- Close as a method: the database rows are untouched. -/
def closeK (st : KSState) : KSState × Option KSError :=
  let r := close st.ks
  ({ st with ks := r.1 }, r.2)

/-! Helper lemmas about the store operations. -/

theorem storeHasName_nil (n : String) : storeHasName [] n = false := rfl

theorem storeHasName_cons (r : String × Bytes) (s : Store) (n : String) :
    storeHasName (r :: s) n = ((r.1 == n) || storeHasName s n) := by
  simp [storeHasName]

theorem storeLookup_append_new (s : Store) (n : String) (bs : Bytes)
    (h : storeHasName s n = false) :
    storeLookup (s ++ [(n, bs)]) n = some bs := by
  induction s with
  | nil => simp [storeLookup, List.find?]
  | cons r rest ih =>
    rw [storeHasName_cons] at h
    rcases Bool.or_eq_false_iff.mp h with ⟨h1, h2⟩
    simp only [List.cons_append, storeLookup, List.find?, h1]
    exact ih h2

theorem storeLookup_replace (s : Store) (n : String) (bs : Bytes)
    (h : storeHasName s n = true) :
    storeLookup (s.map (fun r => if r.1 == n then (r.1, bs) else r)) n
      = some bs := by
  induction s with
  | nil => simp [storeHasName] at h
  | cons r rest ih =>
    by_cases hr : (r.1 == n) = true
    · simp [storeLookup, List.find?, hr]
    · rw [storeHasName_cons] at h
      have h2 : storeHasName rest n = true := by
        cases Bool.or_eq_true_iff.mp h with
        | inl h1 => exact absurd h1 hr
        | inr h2 => exact h2
      have hr0 : (r.1 == n) = false := Bool.eq_false_iff.mpr hr
      have hhead : (if (r.1 == n) = true then (r.1, bs) else r) = r :=
        if_neg hr
      rw [List.map_cons, hhead]
      simp only [storeLookup, List.find?, hr0]
      exact ih h2

theorem storeLookup_upsert (s : Store) (n : String) (bs : Bytes) :
    storeLookup (upsertRow s n bs) n = some bs := by
  unfold upsertRow
  by_cases h : storeHasName s n = true
  · rw [if_pos h]
    exact storeLookup_replace s n bs h
  · rw [if_neg h]
    exact storeLookup_append_new s n bs (Bool.eq_false_iff.mpr h)

theorem storeHasName_of_lookup (s : Store) (n : String) (bs : Bytes)
    (h : storeLookup s n = some bs) : storeHasName s n = true := by
  induction s with
  | nil => simp [storeLookup] at h
  | cons r rest ih =>
    by_cases hr : (r.1 == n) = true
    · rw [storeHasName_cons, hr, Bool.true_or]
    · have hr0 : (r.1 == n) = false := Bool.eq_false_iff.mpr hr
      simp only [storeLookup, List.find?, hr0] at h
      rw [storeHasName_cons, hr0, Bool.false_or]
      exact ih h

theorem storeHasName_upsert (s : Store) (n : String) (bs : Bytes) :
    storeHasName (upsertRow s n bs) n = true :=
  storeHasName_of_lookup _ n bs (storeLookup_upsert s n bs)

theorem put_ok_inv {K : Type} (marshal : K → Option Bytes) (s : Store)
    (n : String) (k : K) (h : (put marshal s n k).2 = none) :
    n ≠ "" ∧ storeHasName s n = false ∧
      ∃ bs, marshal k = some bs ∧ (put marshal s n k).1 = upsertRow s n bs := by
  by_cases hn : n = ""
  · simp [put, hn] at h
  · refine ⟨hn, ?_⟩
    have hh : has s n = (storeHasName s n, none) := rfl
    by_cases he : storeHasName s n = true
    · simp [put, hn, hh, he] at h
    · have he0 : storeHasName s n = false := Bool.eq_false_iff.mpr he
      refine ⟨he0, ?_⟩
      cases hm : marshal k with
      | none => simp [put, hn, hh, he0, putInsert, hm] at h
      | some bs =>
        exact ⟨bs, rfl, by simp [put, hn, hh, he0, putInsert, hm]⟩

theorem put_success {K : Type} (marshal : K → Option Bytes) (s : Store)
    (n : String) (k : K) (bs : Bytes) (hn : n ≠ "")
    (he : storeHasName s n = false) (hm : marshal k = some bs) :
    put marshal s n k = (upsertRow s n bs, none) := by
  have hh : has s n = (storeHasName s n, none) := rfl
  simp [put, hn, hh, he, putInsert, hm]

theorem put_exists_fails {K : Type} (marshal : K → Option Bytes) (s : Store)
    (n : String) (k : K) (hn : n ≠ "") (hhas : storeHasName s n = true) :
    put marshal s n k = (s, some KSError.errKeyExists) := by
  have hh : has s n = (storeHasName s n, none) := rfl
  simp [put, hn, hh, hhas]

theorem storeHasName_filter (s : Store) (n : String) :
    storeHasName (s.filter (fun r => !(r.1 == n))) n = false := by
  induction s with
  | nil => rfl
  | cons r rest ih =>
    by_cases hr : (r.1 == n) = true
    · simp [List.filter_cons, hr, ih]
    · have hr0 : (r.1 == n) = false := Bool.eq_false_iff.mpr hr
      simp [List.filter_cons, hr0, storeHasName_cons, ih]

theorem storeLookup_cons (r : String × Bytes) (s : Store) (n : String) :
    storeLookup (r :: s) n =
      if (r.1 == n) = true then some r.2 else storeLookup s n := by
  by_cases hr : (r.1 == n) = true
  · simp [storeLookup, List.find?, hr]
  · have hr0 : (r.1 == n) = false := Bool.eq_false_iff.mpr hr
    simp [storeLookup, List.find?, hr0, hr]

theorem storeLookup_filter (s : Store) (n : String) :
    storeLookup (s.filter (fun r => !(r.1 == n))) n = none := by
  induction s with
  | nil => rfl
  | cons r rest ih =>
    by_cases hr : (r.1 == n) = true
    · simp [List.filter_cons, hr, ih]
    · have hr0 : (r.1 == n) = false := Bool.eq_false_iff.mpr hr
      simp [List.filter_cons, hr0, storeLookup_cons, ih]

theorem listScan_listRows (s : Store) :
    listScan (listRows s) = s.map (fun r => r.1) := by
  induction s with
  | nil => rfl
  | cons r rest ih => simp [listRows, listScan, ih, listRows] at ih ⊢

theorem listScan_filterMap (rows : List (Option String)) :
    listScan rows = rows.filterMap id := by
  induction rows with
  | nil => rfl
  | cons r rest ih => cases r <;> simp [listScan, ih]

/-! Theorems settling the claims. -/

/-- C1: for every name n and key k, after a successful Put(n, k) a
subsequent Get(n) succeeds and returns a key equal to k, given that
the external codec round-trips k (unmarshal after marshal recovers
it). -/
theorem get_after_put_roundtrip {K : Type} (marshal : K → Option Bytes)
    (unmarshal : Bytes → Option K) (s : Store) (n : String) (k : K)
    (hrt : ∀ bs, marshal k = some bs → unmarshal bs = some k)
    (hok : (put marshal s n k).2 = none) :
    get unmarshal (put marshal s n k).1 n = (some k, none) := by
  obtain ⟨hn, he, bs, hm, hs1⟩ := put_ok_inv marshal s n k hok
  rw [hs1]
  have hl : storeLookup (upsertRow s n bs) n = some bs :=
    storeLookup_upsert s n bs
  simp [get, getScan, hl, hrt bs hm]

/-- Witness for C1 at a concrete store, name, key and codec. -/
theorem get_after_put_roundtrip_witness :
    get (fun bs => some bs) (put (fun k : Bytes => some k) [] "a" [1, 2]).1 "a"
      = (some [1, 2], none) :=
  get_after_put_roundtrip (fun k => some k) (fun bs => some bs) [] "a" [1, 2]
    (fun _ h => h.symm) (by decide)

/-- C2: a sequential Put(n, k1) then Put(n, k2) on the same name has
the second call fail with ErrKeyExists, leave the store unchanged, and
keep the marshalled bytes of k1 stored under n. -/
theorem put_existing_name_fails {K : Type} (marshal : K → Option Bytes)
    (s : Store) (n : String) (k1 k2 : K)
    (hok : (put marshal s n k1).2 = none) :
    (put marshal (put marshal s n k1).1 n k2).2
        = some KSError.errKeyExists ∧
      (put marshal (put marshal s n k1).1 n k2).1 = (put marshal s n k1).1 ∧
      storeLookup (put marshal (put marshal s n k1).1 n k2).1 n
        = marshal k1 := by
  obtain ⟨hn, he, bs, hm, hs1⟩ := put_ok_inv marshal s n k1 hok
  have hhas : storeHasName (put marshal s n k1).1 n = true := by
    rw [hs1]; exact storeHasName_upsert s n bs
  have hput2 : put marshal (put marshal s n k1).1 n k2
      = ((put marshal s n k1).1, some KSError.errKeyExists) :=
    put_exists_fails marshal (put marshal s n k1).1 n k2 hn hhas
  refine ⟨by rw [hput2], by rw [hput2], ?_⟩
  rw [hput2, hs1, hm]
  exact storeLookup_upsert s n bs

/-- Witness for C2 at a concrete store, name and keys. -/
theorem put_existing_name_fails_witness :
    (put (fun k : Bytes => some k)
        (put (fun k : Bytes => some k) [] "a" [1]).1 "a" [2]).2
      = some KSError.errKeyExists :=
  (put_existing_name_fails (fun k => some k) [] "a" [1] [2] (by decide)).1

/-- C3: Put with the empty name fails with the invalid-name error and
returns the store untouched, for every key and every store. -/
theorem put_empty_name {K : Type} (marshal : K → Option Bytes) (s : Store)
    (k : K) : put marshal s "" k = (s, some KSError.errEmptyName) := by
  simp [put]

/-- C4: Delete succeeds on any store and name (also when the name is
absent), and afterwards Has reports false and Get fails with
ErrNoSuchKey. -/
theorem delete_then_absent {K : Type} (unmarshal : Bytes → Option K)
    (s : Store) (n : String) :
    (delete s n).2 = none ∧
      has (delete s n).1 n = (false, none) ∧
      get unmarshal (delete s n).1 n = (none, some KSError.errNoSuchKey) := by
  refine ⟨rfl, ?_, ?_⟩
  · have h := storeHasName_filter s n
    simp [has, hasScan, hasFromScan, delete, h]
  · have h := storeLookup_filter s n
    simp [get, getScan, delete, h]

/-- C5: immediately after a successful Put(n, k), Has(n) returns true
with no error; and Has on an absent name returns false with no
error. -/
theorem has_after_put {K : Type} (marshal : K → Option Bytes)
    (s s0 : Store) (n n0 : String) (k : K) :
    ((put marshal s n k).2 = none →
        has (put marshal s n k).1 n = (true, none)) ∧
      (storeHasName s0 n0 = false → has s0 n0 = (false, none)) := by
  constructor
  · intro hok
    obtain ⟨hn, he, bs, hm, hs1⟩ := put_ok_inv marshal s n k hok
    rw [hs1]
    simp [has, hasScan, hasFromScan, storeHasName_upsert]
  · intro h
    simp [has, hasScan, hasFromScan, h]

/-- Witness for C5 at a concrete store, name and key. -/
theorem has_after_put_witness :
    has (put (fun k : Bytes => some k) [] "a" [1]).1 "a" = (true, none) ∧
      has [] "b" = (false, none) :=
  ⟨(has_after_put (fun k => some k) [] [] "a" "b" [1]).1 (by decide),
    (has_after_put (fun k => some k) [] [] "a" "b" [1]).2 (by decide)⟩

/-- C6: List on the empty store returns the empty sequence with no
error; on a healthy store it returns all stored names in order with no
error; and the scan loop skips exactly the rows whose name fails to
decode. -/
theorem list_names_lenient :
    list [] = ([], none) ∧
      (∀ s : Store, list s = (s.map (fun r => r.1), none)) ∧
      (∀ rows : List (Option String), listScan rows = rows.filterMap id) := by
  refine ⟨rfl, ?_, listScan_filterMap⟩
  intro s
  simp [list, listScan_listRows]

/-- C7: Has maps the scan outcome as specified — no-rows to
(false, ErrNoSuchKey), success to the existence boolean with no error,
any other failure to false with that error — and never returns true
together with an error. -/
theorem hasFromScan_cases :
    hasFromScan ScanResult.noRows = (false, some KSError.errNoSuchKey) ∧
      (∀ b, hasFromScan (ScanResult.ok b) = (b, none)) ∧
      (∀ c, hasFromScan (ScanResult.err c)
        = (false, some (KSError.errQuery c))) ∧
      (∀ r : ScanResult Bool,
        (hasFromScan r).1 = false ∨ (hasFromScan r).2 = none) := by
  refine ⟨rfl, fun b => rfl, fun c => rfl, fun r => ?_⟩
  cases r with
  | noRows => exact Or.inl rfl
  | ok b => exact Or.inr rfl
  | err c => exact Or.inl rfl

/-- C8: construction without an explicit table option configures the
default table name "keys", and no subsequent operation (Put, Has, Get,
Delete, List, Close) changes the adapter's table name. -/
theorem default_table_immutable :
    NewKeystore true [] = Except.ok { table := "keys", pool := some () } ∧
      (∀ (K : Type) (marshal : K → Option Bytes) (st : KSState) (n : String)
        (k : K), ((putK marshal st n k).1).ks.table = st.ks.table) ∧
      (∀ (st : KSState) (n : String),
        ((deleteK st n).1).ks.table = st.ks.table) ∧
      (∀ (st : KSState) (n : String),
        ((hasK st n).1).ks.table = st.ks.table) ∧
      (∀ (K : Type) (unmarshal : Bytes → Option K) (st : KSState)
        (n : String), ((getK unmarshal st n).1).ks.table = st.ks.table) ∧
      (∀ st : KSState, ((listK st).1).ks.table = st.ks.table) ∧
      (∀ st : KSState, ((closeK st).1).ks.table = st.ks.table) := by
  refine ⟨rfl, fun K m st n k => rfl, fun st n => rfl, fun st n => rfl,
    fun K u st n => rfl, fun st => rfl, fun st => ?_⟩
  cases h : st.ks.pool <;> simp [closeK, close, h]

theorem applyFrom_cons_ok (i : Nat) (o o2 : Options) (opt : KSOption)
    (rest : List KSOption) (h : opt o = Except.ok o2) :
    applyFrom i o (opt :: rest) = applyFrom (i + 1) o2 rest := by
  simp only [applyFrom, h]

/-- The Table options in a list never make the table name empty once
it is non-empty. -/
theorem applyFrom_tables_ne (ts : List String) :
    ∀ (i : Nat) (o : Options), o.Table ≠ "" →
      ∃ tbl, applyFrom i o (ts.map Table) = Except.ok { Table := tbl } ∧
        tbl ≠ "" := by
  induction ts with
  | nil =>
    intro i o ho
    exact ⟨o.Table, rfl, ho⟩
  | cons t rest ih =>
    intro i o ho
    rw [List.map_cons]
    by_cases ht : t = ""
    · have hstep : Table t o = Except.ok o := by simp [Table, ht]
      rw [applyFrom_cons_ok i o o (Table t) (rest.map Table) hstep]
      exact ih (i + 1) o ho
    · have hstep : Table t o = Except.ok { o with Table := t } := by
        simp [Table, ht]
      rw [applyFrom_cons_ok i o { o with Table := t } (Table t)
        (rest.map Table) hstep]
      exact ih (i + 1) { o with Table := t } ht

/-- C9: applying the Table option with an empty string leaves the
options unchanged, so construction from any list of Table options
always yields a non-empty table name (the default "keys" is retained
when every supplied name is empty). -/
theorem table_empty_noop :
    (∀ o : Options, Table "" o = Except.ok o) ∧
      (∀ ts : List String, ∃ tbl,
        NewKeystore true (ts.map Table)
            = Except.ok { table := tbl, pool := some () } ∧
          tbl ≠ "") := by
  constructor
  · intro o
    simp [Table]
  · intro ts
    have h0 : ({ Table := "keys" } : Options).Table ≠ "" := by decide
    obtain ⟨tbl, happ, hne⟩ :=
      applyFrom_tables_ne ts 1 { Table := "keys" } h0
    refine ⟨tbl, ?_, hne⟩
    have hd : OptionDefaults ({ Table := "" } : Options)
        = Except.ok { Table := "keys" } := rfl
    have happly : Options.Apply { Table := "" }
        (OptionDefaults :: ts.map Table) = Except.ok { Table := tbl } := by
      unfold Options.Apply
      rw [applyFrom_cons_ok 0 { Table := "" } { Table := "keys" }
        OptionDefaults (ts.map Table) hd]
      exact happ
    simp [NewKeystore, happly]

/-- C10: Close always returns nil, also when the pool handle is nil,
and leaves the adapter's table name unchanged. -/
theorem close_always_nil (k : PGKeystore) :
    (close k).2 = none ∧ (close k).1.table = k.table := by
  cases h : k.pool <;> simp [close, h]

end Pgks
